import Mathlib

/-!
Verification development for TreeTool (treetool.py), a directory-structure
visualizer.  The definitions below are a shallow embedding of the core of
`treetool.py`: the ignore-pattern matcher (`shouldIgnore`, mirroring
`IgnorePatternMatcher.should_ignore` and Python's `fnmatch`), the recursive
tree walker (`walkDirF`, mirroring `TreeGenerator._walk_directory`), the
top-level `generate`, and the relevant slice of the CLI entry point
(`mainRun`, mirroring `main`).

Modelling conventions:
* The live filesystem is modelled by the inductive `FSEntry`; a directory
  carries a `listable` flag, `listable = false` meaning that
  `path.iterdir()` raises `PermissionError` for it.
* Machine-level details are modelled at the `Nat` level; names are `String`s
  compared by code point exactly as Python compares `str`.  `str.lower()` is
  modelled for ASCII letters (`lowerCode`).
* Python's recursion over the filesystem is not structural for Lean, so the
  walker takes an explicit fuel argument, instantiated with `fsSize` (an
  upper bound on the recursion depth); `walkDirF_fuel_congr` below shows the
  result does not depend on the fuel once it is at least `fsSize`.
* Python's `list.sort(key=...)` is a stable sort by key; any two stable
  sorts by the same key agree, so it is modelled by stable insertion sort
  (`stableSort`).
* Python `set`s of patterns are modelled as lists; `should_ignore` only asks
  whether *some* pattern matches, so multiplicity and order are irrelevant.
-/

/-- A snapshot of the filesystem subtree being walked.  `listable = false`
models a directory for which `iterdir()` raises `PermissionError`. -/
inductive FSEntry where
  | file (name : String)
  | dir (name : String) (listable : Bool) (children : List FSEntry)
deriving Repr

def FSEntry.name : FSEntry → String
  | .file n => n
  | .dir n _ _ => n

/-- Models `entry.is_dir()`. -/
def FSEntry.isDir : FSEntry → Bool
  | .file _ => false
  | .dir _ _ _ => true

/-- Models `entry.is_file()` (entries are files or directories here). -/
def FSEntry.isFile (e : FSEntry) : Bool := !e.isDir

mutual
/-- Number of nodes of the tree; used as fuel for the walker. -/
def fsSize : FSEntry → Nat
  | .file _ => 1
  | .dir _ _ cs => 1 + fsSizeList cs
def fsSizeList : List FSEntry → Nat
  | [] => 0
  | e :: es => fsSize e + fsSizeList es
end

/-- `class TreeStyle(Enum)` from treetool.py. -/
inductive TreeStyle where
  | ascii
  | unicode
  | bold
  | minimal
deriving Repr, DecidableEq

/-- One entry of the `STYLES` table: `(branch, last_branch, vertical, space)`. -/
structure StyleChars where
  branch : String
  last_branch : String
  vertical : String
  space : String
deriving Repr, DecidableEq

/-- The `STYLES` table from treetool.py. -/
def STYLES : TreeStyle → StyleChars
  | .ascii => ⟨"|-- ", "+-- ", "|   ", "    "⟩
  | .unicode => ⟨"├── ", "└── ", "│   ", "    "⟩
  | .bold => ⟨"┣━━ ", "┗━━ ", "┃   ", "    "⟩
  | .minimal => ⟨"|-- ", "`-- ", "|   ", "    "⟩

/-- `@dataclass TreeConfig` from treetool.py.  `root_path` is not a field
here: the filesystem snapshot at the root path is passed to `generate`
directly.  The dataclass has no `__post_init__`: construction never
validates anything. -/
structure TreeConfig where
  max_depth : Option Nat := none
  dirs_only : Bool := false
  files_only : Bool := false
  alphabetic : Bool := false
  style : TreeStyle := TreeStyle.ascii
  show_stats : Bool := false
  use_color : Bool := false
  ignore_patterns : List String := []
  ignore_hidden : Bool := false
deriving Repr, DecidableEq

/-- `@dataclass TreeStats` from treetool.py. -/
structure TreeStats where
  total_dirs : Nat := 0
  total_files : Nat := 0
  max_depth_reached : Nat := 0
deriving Repr, DecidableEq

/-! ### Glob matching (Python `fnmatch` on POSIX)

`fnmatch.fnmatch(name, pattern)` on POSIX is anchored full-name matching,
case-sensitive, with `*`, `?` and `[seq]` (leading `!` negates; a `]` right
after the opening (and optional `!`) is a literal member; `a-b` is a code
point range, a hyphen first or last in the class is literal; an unclosed
`[` is a literal character). -/

/-- Scan for the closing `]` of a character class; returns the class body
and the remainder of the pattern. -/
def scanClose : List Char → Option (List Char × List Char)
  | [] => none
  | ']' :: rest => some ([], rest)
  | c :: rest =>
    match scanClose rest with
    | some (inner, remain) => some (c :: inner, remain)
    | none => none

/-- Split a character class at the start of `p` (the part after `[`):
negation flag, class body, remainder after `]`.  `none` when the class is
unterminated, in which case `[` matches literally. -/
def splitClass (p : List Char) : Option (Bool × List Char × List Char) :=
  let neg : Bool := match p with | '!' :: _ => true | _ => false
  let p1 := if neg then p.tail else p
  match p1 with
  | ']' :: rest =>
    match scanClose rest with
    | some (inner, remain) => some (neg, ']' :: inner, remain)
    | none => none
  | _ =>
    match scanClose p1 with
    | some (inner, remain) => some (neg, inner, remain)
    | none => none

/-- Turn a class body into a list of code-point ranges (singletons as
one-element ranges); `a-b` is a range unless the hyphen is first or last. -/
def parseRanges : List Char → List (Char × Char)
  | [] => []
  | [c] => [(c, c)]
  | c1 :: '-' :: c2 :: rest => (c1, c2) :: parseRanges rest
  | c :: rest => (c, c) :: parseRanges rest

/-- Does character `c` belong to the (possibly negated) class? -/
def matchClass (neg : Bool) (ranges : List (Char × Char)) (c : Char) : Bool :=
  let inSet := ranges.any fun r => decide (r.1.toNat ≤ c.toNat) && decide (c.toNat ≤ r.2.toNat)
  if neg then !inSet else inSet

/-- Glob matching, pattern against string, with fuel.  Every recursive call
shortens `pattern ++ s`, so fuel `pattern.length + s.length + 1` always
suffices (see `fnmatch`). -/
def globFuel : Nat → List Char → List Char → Bool
  | 0, _, _ => false
  | _ + 1, [], s => s.isEmpty
  | fuel + 1, '*' :: p, s =>
    globFuel fuel p s ||
      (match s with
       | [] => false
       | _ :: s2 => globFuel fuel ('*' :: p) s2)
  | fuel + 1, '?' :: p, s =>
    (match s with
     | [] => false
     | _ :: s2 => globFuel fuel p s2)
  | fuel + 1, '[' :: p, s =>
    (match splitClass p with
     | some (neg, cls, remain) =>
       match s with
       | [] => false
       | c :: s2 => matchClass neg (parseRanges cls) c && globFuel fuel remain s2
     | none =>
       match s with
       | [] => false
       | c :: s2 => ('[' == c) && globFuel fuel p s2)
  | fuel + 1, c :: p, s =>
    (match s with
     | [] => false
     | c2 :: s2 => (c == c2) && globFuel fuel p s2)

/-- `fnmatch.fnmatch(name, pattern)` (POSIX: `normcase` is the identity). -/
def fnmatch (name pattern : String) : Bool :=
  globFuel (pattern.length + name.length + 1) pattern.data name.data

/-- Python `str.endswith`, at the character-data level. -/
def strEndsWith (s t : String) : Bool :=
  s.data.drop (s.data.length - t.data.length) == t.data

/-- Python `str.startswith`, at the character-data level. -/
def strStartsWith (s t : String) : Bool :=
  s.data.take t.data.length == t.data

/-- Python `s[:-n]` (here used as `pattern[:-1]`), at the data level. -/
def strDropRight (s : String) (n : Nat) : String :=
  String.mk (s.data.take (s.data.length - n))

/-- The body of the loop of `IgnorePatternMatcher.should_ignore`: does one
`pattern` match `(name, is_dir)`? -/
def patternMatches (pattern : String) (name : String) (is_dir : Bool) : Bool :=
  if strEndsWith pattern "/" then
    is_dir && fnmatch name (strDropRight pattern 1)
  else if fnmatch name pattern then true
  else name == pattern

/-- `IgnorePatternMatcher.should_ignore(name, is_dir)`: return `true` on the
first matching pattern, `false` when none matches. -/
def shouldIgnore (patterns : List String) (name : String) (is_dir : Bool) : Bool :=
  patterns.any fun pattern => patternMatches pattern name is_dir

/-! ### Sorting (Python `list.sort(key=lambda e: e.name.lower())`) -/

/-- `str.lower()` per character (ASCII), at the code-point level. -/
def lowerCode (c : Char) : Nat :=
  let n := c.toNat
  if 65 ≤ n && n ≤ 90 then n + 32 else n

/-- The sort key of an entry name: code points of `name.lower()`. -/
def lowerKey (s : String) : List Nat := s.data.map lowerCode

/-- Lexicographic comparison of code-point sequences, i.e. Python `str` ≤. -/
def keyLe : List Nat → List Nat → Bool
  | [], _ => true
  | _ :: _, [] => false
  | a :: as, b :: bs => if a < b then true else if b < a then false else keyLe as bs

/-- `key=lambda e: e.name.lower()` comparison between two entries. -/
def entryLe (a b : FSEntry) : Bool := keyLe (lowerKey a.name) (lowerKey b.name)

/-- Stable insertion: `x` goes before the first element it is `le` to, hence
after all elements with an equal key that are already in place. -/
def insertSorted {α : Type} (le : α → α → Bool) (x : α) : List α → List α
  | [] => [x]
  | y :: ys => if le x y then x :: y :: ys else y :: insertSorted le x ys

/-- Stable sort; extensionally equal to Python's (stable) `list.sort`. -/
def stableSort {α : Type} (le : α → α → Bool) : List α → List α
  | [] => []
  | x :: xs => insertSorted le x (stableSort le xs)

/-! ### The walker (`TreeGenerator._walk_directory`) -/

/-- The filter block of `_walk_directory` (the three `continue` checks). -/
def keepEntry (cfg : TreeConfig) (e : FSEntry) : Bool :=
  !(cfg.ignore_hidden && strStartsWith e.name ".") &&
  !(shouldIgnore cfg.ignore_patterns e.name e.isDir) &&
  !(cfg.dirs_only && !e.isDir) &&
  !(cfg.files_only && e.isDir)

/-- The sort block of `_walk_directory`: one sort in alphabetic mode, else
directories then files, each sorted. -/
def sortEntries (cfg : TreeConfig) (l : List FSEntry) : List FSEntry :=
  if cfg.alphabetic then stableSort entryLe l
  else stableSort entryLe (l.filter (·.isDir)) ++ stableSort entryLe (l.filter (·.isFile))

/-- `self.config.max_depth is not None and depth >= self.config.max_depth`. -/
def depthLimited : Option Nat → Nat → Bool
  | some k, depth => decide (k ≤ depth)
  | none, _ => false

/-- `list(path.iterdir())`, `none` modelling `PermissionError`.  (The walker
only ever calls this on directories; the `file` case is unreachable.) -/
def iterdir : FSEntry → Option (List FSEntry)
  | .file _ => some []
  | .dir _ listable cs => if listable then some cs else none

/-- The emission loop of `_walk_directory` (`for i, entry in
enumerate(filtered_entries)`), abstracted over the recursive call `w` into
subdirectories.  `is_last` is `i == len - 1`, i.e. the tail is empty. -/
def walkChildrenWith (w : FSEntry → String → Nat → TreeStats → List String × TreeStats)
    (g : StyleChars) : List FSEntry → String → Nat → TreeStats → List String × TreeStats
  | [], _, _, st => ([], st)
  | e :: rest, pfx, depth, st =>
    let isLast := rest.isEmpty
    let connector := if isLast then g.last_branch else g.branch
    let line := pfx ++ connector ++ e.name
    match e with
    | .file _ =>
      let st1 := { st with total_files := st.total_files + 1 }
      let (tailLines, st2) := walkChildrenWith w g rest pfx depth st1
      (line :: tailLines, st2)
    | .dir _ _ _ =>
      let line1 := line ++ "/"
      let st1 := { st with total_dirs := st.total_dirs + 1 }
      let newPfx := pfx ++ (if isLast then g.space else g.vertical)
      let (subLines, st2) := w e newPfx (depth + 1) st1
      let (tailLines, st3) := walkChildrenWith w g rest pfx depth st2
      (line1 :: subLines ++ tailLines, st3)

/-- `TreeGenerator._walk_directory(path, prefix, depth)`, with fuel: depth
check, max-depth stat update, listing (permission errors recovered as "no
children"), filter, sort, then the emission loop. -/
def walkDirF : Nat → TreeConfig → FSEntry → String → Nat → TreeStats → List String × TreeStats
  | 0, _, _, _, _, st => ([], st)
  | fuel + 1, cfg, e, pfx, depth, st =>
    if depthLimited cfg.max_depth depth then ([], st)
    else
      let st1 := if depth > st.max_depth_reached then { st with max_depth_reached := depth } else st
      match iterdir e with
      | none => ([], st1)
      | some entries =>
        let filtered := entries.filter (keepEntry cfg)
        let sorted := sortEntries cfg filtered
        walkChildrenWith (walkDirF fuel cfg) (STYLES cfg.style) sorted pfx depth st1

/-- `_walk_directory` with enough fuel for its whole subtree. -/
def walkDirectory (cfg : TreeConfig) (e : FSEntry) (pfx : String) (depth : Nat)
    (st : TreeStats) : List String × TreeStats :=
  walkDirF (fsSize e) cfg e pfx depth st

/-- `TreeGenerator._append_stats`. -/
def statsBlock (st : TreeStats) : List String :=
  ["",
   "----------------------------------------",
   "Directories: " ++ toString st.total_dirs,
   "Files:       " ++ toString st.total_files,
   "Max Depth:   " ++ toString st.max_depth_reached,
   "----------------------------------------"]

/-- `TreeGenerator.generate`: fresh stats, root line
(`root_path.name or str(root_path)`), the walk, optional stats block, lines
joined with newlines.  `rootStr` stands for `str(self.config.root_path)`. -/
def generate (cfg : TreeConfig) (rootStr : String) (root : FSEntry) : String × TreeStats :=
  let rootName := if root.name == "" then rootStr else root.name
  let (lines, st) := walkDirectory cfg root "" 0 {}
  let outLines := rootName :: lines
  let outLines1 := if cfg.show_stats then outLines ++ statsBlock st else outLines
  (String.intercalate "\n" outLines1, st)

/-! ### The CLI slice (`main`) relevant to flag validation -/

/-- Outcome of `main`: early `sys.stderr` error with exit code 1, or a
generated tree. -/
inductive MainResult where
  | exitError (code : Nat) (msg : String)
  | success (tree_output : String) (st : TreeStats)
deriving Repr, DecidableEq

/-- The slice of `main()` from path validation to `generate`, in source
order: path existence, path is-directory, preset patterns, ignore file
(`some none` = named but missing, a hard error; `some (some ps)` = named and
loaded), explicit excludes, then the mutual-exclusion check of `--dirs-only`
and `--files-only`, and only then configuration construction and traversal.
Python's pattern `set` union is modelled by list append (matching is an
"any pattern matches", so duplicates and order are irrelevant). -/
def mainRun (path_exists path_is_dir : Bool) (ignore_file : Option (Option (List String)))
    (preset_patterns exclude : List String) (dirs_only files_only : Bool)
    (max_depth : Option Nat) (alphabetic : Bool) (style : TreeStyle)
    (show_stats : Bool) (ignore_hidden : Bool) (rootStr : String) (root : FSEntry) :
    MainResult :=
  if !path_exists then .exitError 1 "Error: Path does not exist"
  else if !path_is_dir then .exitError 1 "Error: Path is not a directory"
  else
    match ignore_file with
    | some none => .exitError 1 "Error: Ignore file not found"
    | igf =>
      let patterns1 := preset_patterns ++ (match igf with | some (some ps) => ps | _ => [])
      let patterns2 := patterns1 ++ exclude
      if dirs_only && files_only then
        .exitError 1 "Error: --dirs-only and --files-only are mutually exclusive"
      else
        let cfg : TreeConfig :=
          { max_depth := max_depth, dirs_only := dirs_only, files_only := files_only,
            alphabetic := alphabetic, style := style, show_stats := show_stats,
            use_color := false, ignore_patterns := patterns2, ignore_hidden := ignore_hidden }
        let r := generate cfg rootStr root
        .success r.1 r.2

/-! ### Claim-side auxiliary definitions -/

/-- Cut a tree off below nesting level `k`: with `k = 0` a directory keeps
its line but loses its children. -/
def truncateTree : Nat → FSEntry → FSEntry
  | _, .file n => .file n
  | 0, .dir n b _ => .dir n b []
  | k + 1, .dir n b cs => .dir n b (cs.map (truncateTree k))

mutual
/-- Replace the children of every unlistable directory by `[]`: the tree
the walker effectively sees after recovering permission errors. -/
def pruneUnlistable : FSEntry → FSEntry
  | .file n => .file n
  | .dir n true cs => .dir n true (pruneList cs)
  | .dir n false _ => .dir n false []
def pruneList : List FSEntry → List FSEntry
  | [] => []
  | e :: es => pruneUnlistable e :: pruneList es
end

/-- Numbers of (directories, files) reachable strictly below `e` within the
depth limit: children of a directory at depth `d` are reachable when the
directory is listable and `d` is not depth-limited. -/
def reachCountsF : Nat → Option Nat → Nat → FSEntry → Nat × Nat
  | 0, _, _, _ => (0, 0)
  | fuel + 1, maxd, depth, e =>
    if depthLimited maxd depth then (0, 0)
    else
      match iterdir e with
      | none => (0, 0)
      | some entries =>
        entries.foldr
          (fun c acc =>
            let sub := reachCountsF fuel maxd (depth + 1) c
            ((if c.isDir then 1 else 0) + sub.1 + acc.1,
             (if c.isFile then 1 else 0) + sub.2 + acc.2))
          (0, 0)

/-- All proper descendants of a tree (fuel as in the walker). -/
def allEntriesF : Nat → FSEntry → List FSEntry
  | 0, _ => []
  | _ + 1, .file _ => []
  | fuel + 1, .dir _ _ cs => cs ++ cs.foldr (fun c acc => allEntriesF fuel c ++ acc) []

/-- Does a rendered line carry the trailing directory marker `/`? -/
def hasSlashSuffix (s : String) : Bool := s.data.getLast? == some '/'

/-- One sibling's contribution, with the connector and the prefix
continuation made explicit parameters (claim-side view of one iteration of
the emission loop). -/
def renderOne (w : FSEntry → String → Nat → TreeStats → List String × TreeStats)
    (connector cont : String) (e : FSEntry) (pfx : String) (depth : Nat)
    (st : TreeStats) : List String × TreeStats :=
  match e with
  | .file n =>
    ((pfx ++ connector ++ n) :: [], { st with total_files := st.total_files + 1 })
  | .dir _ _ _ =>
    let (subLines, st2) :=
      w e (pfx ++ cont) (depth + 1) { st with total_dirs := st.total_dirs + 1 }
    ((pfx ++ connector ++ e.name ++ "/") :: subLines, st2)

/-- The non-last siblings in order, each with the `branch` connector and the
`vertical` continuation. -/
def renderRun (w : FSEntry → String → Nat → TreeStats → List String × TreeStats)
    (g : StyleChars) : List FSEntry → String → Nat → TreeStats → List String × TreeStats
  | [], _, _, st => ([], st)
  | e :: rest, pfx, depth, st =>
    let (lines1, st1) := renderOne w g.branch g.vertical e pfx depth st
    let (lines2, st2) := renderRun w g rest pfx depth st1
    (lines1 ++ lines2, st2)

/-! ### Concrete fixtures -/

/-- The round-trip fixture: `proj/` containing `src/` (with `main.ext`) and
`readme.txt`. -/
def fixtureTree : FSEntry :=
  .dir "proj" true [.dir "src" true [.file "main.ext"], .file "readme.txt"]

/-- Default configuration: no filters, default sort, ascii style, no stats. -/
def defaultConfig : TreeConfig := {}

/-- Default configuration with `max_depth = 1`. -/
def depth1Config : TreeConfig := { max_depth := some 1 }

/-- A configuration with `dirs_only` and `files_only` both set — the
`TreeConfig` dataclass accepts it without any validation. -/
def bothConfig : TreeConfig := { dirs_only := true, files_only := true }

/-- Two enumeration orders of one directory snapshot whose two files have
case-insensitively equal names. -/
def enumA : List FSEntry := [.file "File", .file "file"]

/-- The other enumeration order of the same snapshot. -/
def enumB : List FSEntry := [.file "file", .file "File"]

/-! ## Helper lemmas -/

theorem mem_foldr_append {α β : Type} {f : α → List β} {cs : List α} {x : β} :
    x ∈ cs.foldr (fun c acc => f c ++ acc) [] ↔ ∃ c ∈ cs, x ∈ f c := by
  induction cs with
  | nil => simp
  | cons c cs ih => simp [List.mem_append, ih]

theorem keyLe_total (a b : List Nat) : keyLe a b = true ∨ keyLe b a = true := by
  induction a generalizing b with
  | nil => left; rfl
  | cons x xs ih =>
    cases b with
    | nil => right; rfl
    | cons y ys =>
      rcases Nat.lt_trichotomy x y with h | h | h
      · left; simp [keyLe, h]
      · subst h
        rcases ih ys with h2 | h2
        · left; simp [keyLe, h2, Nat.lt_irrefl]
        · right; simp [keyLe, h2, Nat.lt_irrefl]
      · right; simp [keyLe, h]

theorem keyLe_of_not (a b : List Nat) (h : keyLe a b = false) : keyLe b a = true := by
  rcases keyLe_total a b with h2 | h2
  · rw [h] at h2; exact absurd h2 (by simp)
  · exact h2

theorem keyLe_antisymm (a b : List Nat) (h1 : keyLe a b = true) (h2 : keyLe b a = true) :
    a = b := by
  induction a generalizing b with
  | nil =>
    cases b with
    | nil => rfl
    | cons y ys => simp [keyLe] at h2
  | cons x xs ih =>
    cases b with
    | nil => simp [keyLe] at h1
    | cons y ys =>
      rcases Nat.lt_trichotomy x y with h | h | h
      · simp [keyLe, h, Nat.lt_asymm h] at h2
      · subst h
        simp only [keyLe, Nat.lt_irrefl, if_false] at h1 h2
        rw [ih ys h1 h2]
      · simp [keyLe, h, Nat.lt_asymm h] at h1

theorem keyLe_trans (a b c : List Nat) (h1 : keyLe a b = true) (h2 : keyLe b c = true) :
    keyLe a c = true := by
  induction a generalizing b c with
  | nil => rfl
  | cons x xs ih =>
    cases b with
    | nil => simp [keyLe] at h1
    | cons y ys =>
      cases c with
      | nil => simp [keyLe] at h2
      | cons z zs =>
        simp only [keyLe] at h1 h2 ⊢
        rcases Nat.lt_trichotomy x y with hxy | hxy | hxy
        · rcases Nat.lt_trichotomy y z with hyz | hyz | hyz
          · simp [Nat.lt_trans hxy hyz]
          · subst hyz; simp [hxy]
          · simp [hyz, Nat.lt_asymm hyz] at h2
        · subst hxy
          rcases Nat.lt_trichotomy x z with hyz | hyz | hyz
          · simp [hyz]
          · subst hyz
            simp only [Nat.lt_irrefl, if_false] at h1 h2 ⊢
            exact ih ys zs h1 h2
          · simp [hyz, Nat.lt_asymm hyz] at h2
        · simp [hxy, Nat.lt_asymm hxy] at h1

theorem entryLe_of_not (a b : FSEntry) (h : entryLe a b = false) : entryLe b a = true :=
  keyLe_of_not _ _ h

theorem entryLe_trans (a b c : FSEntry) (h1 : entryLe a b = true) (h2 : entryLe b c = true) :
    entryLe a c = true :=
  keyLe_trans _ _ _ h1 h2

theorem insertSorted_perm {α : Type} (le : α → α → Bool) (x : α) (l : List α) :
    (insertSorted le x l).Perm (x :: l) := by
  induction l with
  | nil => exact List.Perm.refl _
  | cons y ys ih =>
    by_cases h : le x y = true
    · simp [insertSorted, h]
    · simp only [insertSorted, h, if_false, Bool.false_eq_true]
      exact (ih.cons y).trans (List.Perm.swap x y ys)

theorem stableSort_perm {α : Type} (le : α → α → Bool) (l : List α) :
    (stableSort le l).Perm l := by
  induction l with
  | nil => exact List.Perm.refl _
  | cons x xs ih =>
    exact (insertSorted_perm le x (stableSort le xs)).trans (ih.cons x)

theorem mem_stableSort {α : Type} (le : α → α → Bool) (l : List α) (x : α) :
    x ∈ stableSort le l ↔ x ∈ l :=
  (stableSort_perm le l).mem_iff

theorem insertSorted_pairwise {α : Type} (le : α → α → Bool)
    (htot : ∀ a b, le a b = false → le b a = true)
    (htrans : ∀ a b c, le a b = true → le b c = true → le a c = true)
    (x : α) (l : List α)
    (hl : l.Pairwise fun a b => le a b = true) :
    (insertSorted le x l).Pairwise fun a b => le a b = true := by
  induction l with
  | nil => simp [insertSorted]
  | cons y ys ih =>
    rcases List.pairwise_cons.1 hl with ⟨hy, hys⟩
    by_cases h : le x y = true
    · simp only [insertSorted, h, if_true]
      refine List.pairwise_cons.2 ⟨?_, hl⟩
      intro a ha
      rcases List.mem_cons.1 ha with rfl | ha
      · exact h
      · exact htrans _ _ _ h (hy a ha)
    · simp only [insertSorted, h, if_false, Bool.false_eq_true]
      refine List.pairwise_cons.2 ⟨?_, ih hys⟩
      intro a ha
      have := (insertSorted_perm le x ys).mem_iff.1 ha
      rcases List.mem_cons.1 this with rfl | ha2
      · exact htot _ _ (Bool.eq_false_iff.2 h)
      · exact hy a ha2

theorem stableSort_pairwise {α : Type} (le : α → α → Bool)
    (htot : ∀ a b, le a b = false → le b a = true)
    (htrans : ∀ a b c, le a b = true → le b c = true → le a c = true)
    (l : List α) :
    (stableSort le l).Pairwise fun a b => le a b = true := by
  induction l with
  | nil => simp [stableSort]
  | cons x xs ih => exact insertSorted_pairwise le htot htrans x _ ih

theorem sorted_perm_eq {α : Type} (le : α → α → Bool) :
    ∀ (l1 l2 : List α),
      (∀ a ∈ l1, ∀ b ∈ l1, le a b = true → le b a = true → a = b) →
      l1.Perm l2 →
      l1.Pairwise (fun a b => le a b = true) →
      l2.Pairwise (fun a b => le a b = true) →
      l1 = l2 := by
  intro l1
  induction l1 with
  | nil =>
    intro l2 _ hp _ _
    exact (hp.symm.eq_nil).symm
  | cons a l1 ih =>
    intro l2 hanti hp h1 h2
    cases l2 with
    | nil => exact absurd hp.eq_nil (by simp)
    | cons b l2 =>
      rcases List.pairwise_cons.1 h1 with ⟨ha1, h1'⟩
      rcases List.pairwise_cons.1 h2 with ⟨hb2, h2'⟩
      have hab : a = b := by
        have hainl2 : a ∈ b :: l2 := hp.mem_iff.1 (List.mem_cons_self a l1)
        have hbinl1 : b ∈ a :: l1 := hp.mem_iff.2 (List.mem_cons_self b l2)
        rcases List.mem_cons.1 hainl2 with h | h
        · exact h
        · rcases List.mem_cons.1 hbinl1 with h' | h'
          · exact h'.symm
          · have hba : le b a = true := by
              have : a ∈ b :: l2 := hainl2
              exact hb2 a h
            have hab2 : le a b = true := ha1 b h'
            exact hanti a (List.mem_cons_self a l1) b (List.mem_cons.2 (Or.inr h')) hab2 hba
      subst hab
      have hp' := hp.cons_inv
      have hanti' : ∀ x ∈ l1, ∀ y ∈ l1, le x y = true → le y x = true → x = y := by
        intro x hx y hy
        exact hanti x (List.mem_cons.2 (Or.inr hx)) y (List.mem_cons.2 (Or.inr hy))
      rw [ih l2 hanti' hp' h1' h2']

theorem insertSorted_map {α : Type} (le : α → α → Bool) (φ : α → α)
    (hle : ∀ a b, le (φ a) (φ b) = le a b) (x : α) (l : List α) :
    insertSorted le (φ x) (l.map φ) = (insertSorted le x l).map φ := by
  induction l with
  | nil => rfl
  | cons y ys ih =>
    simp only [List.map_cons, insertSorted, hle]
    by_cases h : le x y = true
    · simp [h]
    · simp only [h, if_false, Bool.false_eq_true, List.map_cons, ih]

theorem stableSort_map {α : Type} (le : α → α → Bool) (φ : α → α)
    (hle : ∀ a b, le (φ a) (φ b) = le a b) (l : List α) :
    stableSort le (l.map φ) = (stableSort le l).map φ := by
  induction l with
  | nil => rfl
  | cons x xs ih => simp only [List.map_cons, stableSort, ih, insertSorted_map le φ hle]

theorem filter_map_comm {α : Type} (p : α → Bool) (φ : α → α)
    (hp : ∀ a, p (φ a) = p a) (l : List α) :
    (l.map φ).filter p = (l.filter p).map φ := by
  induction l with
  | nil => rfl
  | cons x xs ih =>
    simp only [List.map_cons, List.filter_cons, hp]
    by_cases h : p x = true
    · simp [h, ih]
    · simp only [h, Bool.false_eq_true, if_false, ih]

theorem FSEntry.eq_file_of_not_isDir (e : FSEntry) (h : e.isDir = false) :
    e = .file e.name := by
  cases e with
  | file n => rfl
  | dir n b cs => simp [FSEntry.isDir] at h

theorem FSEntry.exists_dir_of_isDir (e : FSEntry) (h : e.isDir = true) :
    ∃ b cs, e = .dir e.name b cs := by
  cases e with
  | file n => simp [FSEntry.isDir] at h
  | dir n b cs => exact ⟨b, cs, rfl⟩

theorem mem_fsSizeList (c : FSEntry) (cs : List FSEntry) (h : c ∈ cs) :
    fsSize c ≤ fsSizeList cs := by
  induction cs with
  | nil => simp at h
  | cons e es ih =>
    rcases List.mem_cons.1 h with rfl | h
    · simp only [fsSizeList]; omega
    · have := ih h
      simp only [fsSizeList]; omega

theorem fsSize_pos (e : FSEntry) : 1 ≤ fsSize e := by
  cases e <;> simp only [fsSize] <;> omega

theorem mem_sortEntries (cfg : TreeConfig) (l : List FSEntry) (x : FSEntry)
    (h : x ∈ sortEntries cfg l) : x ∈ l := by
  unfold sortEntries at h
  by_cases ha : cfg.alphabetic = true
  · rw [if_pos ha] at h
    exact (mem_stableSort _ _ _).1 h
  · rw [if_neg ha] at h
    rcases List.mem_append.1 h with h | h
    · exact List.mem_of_mem_filter ((mem_stableSort _ _ _).1 h)
    · exact List.mem_of_mem_filter ((mem_stableSort _ _ _).1 h)

theorem walkChildrenWith_map_congr (φ : FSEntry → FSEntry)
    (hname : ∀ x, (φ x).name = x.name) (hdir : ∀ x, (φ x).isDir = x.isDir)
    (g : StyleChars) :
    ∀ (l : List FSEntry) (w1 w2 : FSEntry → String → Nat → TreeStats → List String × TreeStats),
      (∀ x ∈ l, ∀ pfx depth st, w2 (φ x) pfx depth st = w1 x pfx depth st) →
      ∀ pfx depth st,
        walkChildrenWith w2 g (l.map φ) pfx depth st = walkChildrenWith w1 g l pfx depth st := by
  intro l
  induction l with
  | nil => intro w1 w2 _ pfx depth st; rfl
  | cons e rest ih =>
    intro w1 w2 hw pfx depth st
    have hempty : (rest.map φ).isEmpty = rest.isEmpty := by
      cases rest <;> rfl
    have ihw : ∀ x ∈ rest, ∀ pfx depth st, w2 (φ x) pfx depth st = w1 x pfx depth st :=
      fun x hx => hw x (List.mem_cons.2 (Or.inr hx))
    cases e with
    | file n =>
      have heq : φ (.file n) = .file n := by
        have h1 := FSEntry.eq_file_of_not_isDir (φ (.file n)) (by rw [hdir]; rfl)
        have h2 : (φ (.file n)).name = n := hname (.file n)
        rw [h2] at h1
        exact h1
      simp only [List.map_cons, heq, walkChildrenWith, hempty]
      rw [ih _ _ ihw]
    | dir n b cs =>
      rcases FSEntry.exists_dir_of_isDir (φ (.dir n b cs)) (by rw [hdir]; rfl) with ⟨b2, cs2, heq⟩
      have h2 : (φ (.dir n b cs)).name = n := hname (.dir n b cs)
      rw [h2] at heq
      have hwe := hw (.dir n b cs) (List.mem_cons_self _ _)
      simp only [List.map_cons, walkChildrenWith, hempty, heq] at hwe ⊢
      rw [← heq] at hwe ⊢
      have hn3 : (FSEntry.dir n b cs).name = n := rfl
      simp only [hwe, ih _ _ ihw, h2, hn3]

theorem walkChildrenWith_map_lines (φ : FSEntry → FSEntry)
    (hname : ∀ x, (φ x).name = x.name) (hdir : ∀ x, (φ x).isDir = x.isDir)
    (g : StyleChars) (depth : Nat) :
    ∀ (l : List FSEntry) (w1 w2 : FSEntry → String → Nat → TreeStats → List String × TreeStats),
      (∀ x ∈ l, ∀ pfx st st', (w2 (φ x) pfx (depth + 1) st).1 = (w1 x pfx (depth + 1) st').1) →
      ∀ pfx st st',
        (walkChildrenWith w2 g (l.map φ) pfx depth st).1 =
          (walkChildrenWith w1 g l pfx depth st').1 := by
  intro l
  induction l with
  | nil => intro w1 w2 _ pfx st st'; rfl
  | cons e rest ih =>
    intro w1 w2 hw pfx st st'
    have hempty : (rest.map φ).isEmpty = rest.isEmpty := by
      cases rest <;> rfl
    have ihw : ∀ x ∈ rest, ∀ pfx st st', (w2 (φ x) pfx (depth + 1) st).1 = (w1 x pfx (depth + 1) st').1 :=
      fun x hx => hw x (List.mem_cons.2 (Or.inr hx))
    cases e with
    | file n =>
      have heq : φ (.file n) = .file n := by
        have h1 := FSEntry.eq_file_of_not_isDir (φ (.file n)) (by rw [hdir]; rfl)
        have h2 : (φ (.file n)).name = n := hname (.file n)
        rw [h2] at h1
        exact h1
      simp only [List.map_cons, heq, walkChildrenWith, hempty]
      rw [ih _ _ ihw]
    | dir n b cs =>
      rcases FSEntry.exists_dir_of_isDir (φ (.dir n b cs)) (by rw [hdir]; rfl) with ⟨b2, cs2, heq⟩
      have h2 : (φ (.dir n b cs)).name = n := hname (.dir n b cs)
      rw [h2] at heq
      have hwe := hw (.dir n b cs) (List.mem_cons_self _ _)
      have hn3 : (FSEntry.dir n b cs).name = n := rfl
      simp only [List.map_cons, walkChildrenWith, hempty, heq] at hwe ⊢
      rw [← heq] at hwe ⊢
      simp only [h2, hn3]
      rw [hwe (pfx ++ if rest.isEmpty = true then g.space else g.vertical)
            { st with total_dirs := st.total_dirs + 1 } { st' with total_dirs := st'.total_dirs + 1 }]
      rw [ih w1 w2 ihw pfx
            ((w2 (φ (FSEntry.dir n b cs)) (pfx ++ if rest.isEmpty = true then g.space else g.vertical)
                (depth + 1) { st with total_dirs := st.total_dirs + 1 }).2)
            ((w1 (FSEntry.dir n b cs) (pfx ++ if rest.isEmpty = true then g.space else g.vertical)
                (depth + 1) { st' with total_dirs := st'.total_dirs + 1 }).2)]

theorem sortEntries_nil (cfg : TreeConfig) : sortEntries cfg [] = [] := by
  unfold sortEntries
  split <;> rfl

theorem walkDirF_fuel_congr :
    ∀ (f1 f2 : Nat) (cfg : TreeConfig) (e : FSEntry) (pfx : String) (depth : Nat) (st : TreeStats),
      fsSize e ≤ f1 → fsSize e ≤ f2 →
      walkDirF f1 cfg e pfx depth st = walkDirF f2 cfg e pfx depth st := by
  intro f1
  induction f1 with
  | zero =>
    intro f2 cfg e pfx depth st h1 _
    exact absurd h1 (by have := fsSize_pos e; omega)
  | succ f1 ih =>
    intro f2 cfg e pfx depth st h1 h2
    cases f2 with
    | zero => exact absurd h2 (by have := fsSize_pos e; omega)
    | succ f2 =>
      simp only [walkDirF]
      by_cases hdl : depthLimited cfg.max_depth depth = true
      · simp [hdl]
      · simp only [Bool.not_eq_true] at hdl
        simp only [hdl, Bool.false_eq_true, if_false]
        cases e with
        | file n => simp only [iterdir, List.filter_nil, sortEntries_nil]; rfl
        | dir n b cs =>
          cases b with
          | false => simp only [iterdir, Bool.false_eq_true, if_false]
          | true =>
            simp only [iterdir, if_true]
            have hsz : fsSizeList cs ≤ f1 ∧ fsSizeList cs ≤ f2 := by
              simp only [fsSize] at h1 h2
              omega
            have hw : ∀ x ∈ sortEntries cfg (cs.filter (keepEntry cfg)),
                ∀ pfx depth st,
                  walkDirF f1 cfg (id x) pfx depth st = walkDirF f2 cfg x pfx depth st := by
              intro x hx pfx depth st
              have hxcs : x ∈ cs := List.mem_of_mem_filter (mem_sortEntries cfg _ x hx)
              have hxsz := mem_fsSizeList x cs hxcs
              exact ih f2 cfg x pfx depth st (by omega) (by omega)
            have hcongr := walkChildrenWith_map_congr id (fun x => rfl) (fun x => rfl)
              (STYLES cfg.style) (sortEntries cfg (cs.filter (keepEntry cfg)))
              (walkDirF f2 cfg) (walkDirF f1 cfg) hw pfx depth
              (if depth > st.max_depth_reached then { st with max_depth_reached := depth } else st)
            rw [List.map_id] at hcongr
            exact hcongr

theorem pruneList_eq_map (cs : List FSEntry) : pruneList cs = cs.map pruneUnlistable := by
  induction cs with
  | nil => rfl
  | cons e es ih => simp only [pruneList, ih, List.map_cons]

theorem pruneUnlistable_name (e : FSEntry) : (pruneUnlistable e).name = e.name := by
  cases e with
  | file n => rfl
  | dir n b cs => cases b <;> rfl

theorem pruneUnlistable_isDir (e : FSEntry) : (pruneUnlistable e).isDir = e.isDir := by
  cases e with
  | file n => rfl
  | dir n b cs => cases b <;> rfl

theorem keepEntry_congr (cfg : TreeConfig) (x y : FSEntry) (hn : x.name = y.name)
    (hd : x.isDir = y.isDir) : keepEntry cfg x = keepEntry cfg y := by
  unfold keepEntry
  rw [hn, hd]

theorem sortEntries_map (cfg : TreeConfig) (φ : FSEntry → FSEntry)
    (hname : ∀ x, (φ x).name = x.name) (hdir : ∀ x, (φ x).isDir = x.isDir)
    (l : List FSEntry) :
    sortEntries cfg (l.map φ) = (sortEntries cfg l).map φ := by
  have hle : ∀ a b, entryLe (φ a) (φ b) = entryLe a b := fun a b => by
    unfold entryLe
    rw [hname, hname]
  unfold sortEntries
  split
  · exact stableSort_map entryLe φ hle l
  · rw [filter_map_comm _ φ (fun a => hdir a),
        filter_map_comm _ φ (fun a => by simp only [FSEntry.isFile, hdir]),
        stableSort_map entryLe φ hle, stableSort_map entryLe φ hle, List.map_append]

/-! ## Claims -/

/-- C1: for root `proj` containing subdirectory `src` (with the single file
`main.ext`) and file `readme.txt`, `generate` with the default configuration
(no filters, default sort, ascii style, no stats) returns exactly the four
lines `proj`, `|-- src/`, `|   +-- main.ext`, `+-- readme.txt` joined by
newlines. -/
theorem claim1_roundtrip :
    (generate defaultConfig "proj" fixtureTree).1 =
      "proj\n|-- src/\n|   +-- main.ext\n+-- readme.txt" := by decide

theorem patternMatches_iff (pattern name : String) (is_dir : Bool) :
    patternMatches pattern name is_dir = true ↔
      (if strEndsWith pattern "/" = true then
        is_dir = true ∧ fnmatch name (strDropRight pattern 1) = true
      else fnmatch name pattern = true ∨ name = pattern) := by
  unfold patternMatches
  by_cases h : strEndsWith pattern "/" = true
  · simp [h, Bool.and_eq_true]
  · simp only [h, if_false]
    by_cases h2 : fnmatch name pattern = true
    · simp [h, h2]
    · simp [h, h2, beq_iff_eq]

/-- C5: `should_ignore(name, is_dir)` is a pure function of the name, the
directory flag and the pattern set, and returns `true` iff at least one
configured pattern matches, where a pattern ending in `/` matches only a
directory whose name glob-matches the pattern with its trailing slash
removed, and any other pattern matches when the name glob-matches it
(anchored, case-sensitive `*`, `?`, `[seq]` — the `fnmatch` dialect embedded
above) or is exactly equal to it. -/
theorem claim5_should_ignore_spec (patterns : List String) (name : String) (is_dir : Bool) :
    shouldIgnore patterns name is_dir = true ↔
      ∃ pattern ∈ patterns,
        (if strEndsWith pattern "/" = true then
          is_dir = true ∧ fnmatch name (strDropRight pattern 1) = true
        else fnmatch name pattern = true ∨ name = pattern) := by
  unfold shouldIgnore
  rw [List.any_eq_true]
  exact exists_congr fun p => and_congr_right fun _ => patternMatches_iff p name is_dir

/-- Unfolding of `renderOne` on a file entry. -/
theorem renderOne_file (w : FSEntry → String → Nat → TreeStats → List String × TreeStats)
    (connector cont : String) (n : String) (pfx : String) (depth : Nat) (st : TreeStats) :
    renderOne w connector cont (.file n) pfx depth st =
      ([pfx ++ connector ++ n], { st with total_files := st.total_files + 1 }) := rfl

theorem renderOne_dir (w : FSEntry → String → Nat → TreeStats → List String × TreeStats)
    (connector cont : String) (n : String) (b : Bool) (cs : List FSEntry)
    (pfx : String) (depth : Nat) (st : TreeStats) :
    renderOne w connector cont (.dir n b cs) pfx depth st =
      ((pfx ++ connector ++ n ++ "/") ::
          (w (.dir n b cs) (pfx ++ cont) (depth + 1)
            { st with total_dirs := st.total_dirs + 1 }).1,
        (w (.dir n b cs) (pfx ++ cont) (depth + 1)
          { st with total_dirs := st.total_dirs + 1 }).2) := by
  unfold renderOne
  simp only [FSEntry.name]

/-- C3: in every emitted sibling list the last entry's line uses the
last-branch glyph and all earlier entries use the branch glyph, and the
prefix passed to a child directory's recursion extends the current prefix
with the space glyph under a last sibling and the vertical glyph otherwise:
the emission loop on `pre ++ [z]` is the `branch`/`vertical` rendering of
`pre` followed by the `last_branch`/`space` rendering of `z`. -/
theorem claim3_connector_glyphs
    (w : FSEntry → String → Nat → TreeStats → List String × TreeStats)
    (g : StyleChars) (pre : List FSEntry) (z : FSEntry) (pfx : String) (depth : Nat)
    (st : TreeStats) :
    walkChildrenWith w g (pre ++ [z]) pfx depth st =
      ((renderRun w g pre pfx depth st).1 ++
        (renderOne w g.last_branch g.space z pfx depth (renderRun w g pre pfx depth st).2).1,
       (renderOne w g.last_branch g.space z pfx depth (renderRun w g pre pfx depth st).2).2) := by
  induction pre generalizing st with
  | nil =>
    cases z with
    | file n =>
      simp [walkChildrenWith, renderRun, renderOne_file, FSEntry.name]
    | dir n b cs =>
      simp [walkChildrenWith, renderRun, renderOne_dir, FSEntry.name]
  | cons e pre ih =>
    have hne : (pre ++ [z]).isEmpty = false := by
      cases pre <;> rfl
    cases e with
    | file n =>
      simp only [List.cons_append, walkChildrenWith, List.append_eq, hne, Bool.false_eq_true,
        if_false, renderRun, renderOne_file, FSEntry.name]
      rw [ih]
      simp
    | dir n b cs =>
      simp only [List.cons_append, walkChildrenWith, List.append_eq, hne, Bool.false_eq_true,
        if_false, renderRun, renderOne_dir, FSEntry.name]
      rw [ih]
      simp

/-- C8 counterexample: the `TreeConfig` dataclass performs no validation —
a configuration with `dirs_only` and `files_only` both set is constructed
without error, and `generate` runs it to completion (every entry is
filtered, leaving just the root line), contradicting "constructing the
configuration with both set must fail validation before traversal". -/
theorem claim8_counterexample :
    bothConfig.dirs_only = true ∧ bothConfig.files_only = true ∧
      (generate bothConfig "proj" fixtureTree).1 = "proj" := by decide

/-- C8 amended: the both-flags check lives in the CLI layer (`main`), not in
the configuration: when `--dirs-only` and `--files-only` are both given (and
the earlier path checks pass), `main` stops with exit code 1 and the stderr
message before constructing the configuration, and its result does not
depend on the filesystem at all — no traversal occurs. -/
theorem claim8_amended (ps : Option (List String)) (preset_patterns exclude : List String)
    (max_depth : Option Nat) (alphabetic : Bool) (style : TreeStyle)
    (show_stats ignore_hidden : Bool) (rootStr : String) (root root2 : FSEntry) :
    mainRun true true (ps.map some) preset_patterns exclude true true max_depth alphabetic style
        show_stats ignore_hidden rootStr root =
      .exitError 1 "Error: --dirs-only and --files-only are mutually exclusive" ∧
    mainRun true true (ps.map some) preset_patterns exclude true true max_depth alphabetic style
        show_stats ignore_hidden rootStr root =
      mainRun true true (ps.map some) preset_patterns exclude true true max_depth alphabetic style
        show_stats ignore_hidden rootStr root2 := by
  cases ps <;> simp [mainRun]

/-- C7: a `PermissionError` while listing a directory is recovered by
treating that directory as having zero children: the walk of any tree
equals the walk of the tree in which every unlistable directory's children
are dropped (so nothing propagates and all remaining siblings are still
walked), and an unlistable directory walks exactly like a listable empty
one — output lines and statistics alike. -/
theorem claim7_permission_recovery (fuel : Nat) (cfg : TreeConfig) (e : FSEntry)
    (pfx : String) (depth : Nat) (st : TreeStats) (n : String) (cs : List FSEntry) :
    walkDirF fuel cfg e pfx depth st = walkDirF fuel cfg (pruneUnlistable e) pfx depth st ∧
    walkDirF fuel cfg (.dir n false cs) pfx depth st =
      walkDirF fuel cfg (.dir n true []) pfx depth st := by
  constructor
  · induction fuel generalizing e pfx depth st with
    | zero => rfl
    | succ fuel ih =>
      cases e with
      | file m => rfl
      | dir m b ds =>
        cases b with
        | false => rfl
        | true =>
          simp only [pruneUnlistable, pruneList_eq_map, walkDirF]
          by_cases hdl : depthLimited cfg.max_depth depth = true
          · simp [hdl]
          · simp only [Bool.not_eq_true] at hdl
            simp only [hdl, Bool.false_eq_true, if_false, iterdir, if_true]
            rw [filter_map_comm (keepEntry cfg) pruneUnlistable
                  (fun a => keepEntry_congr cfg _ a (pruneUnlistable_name a) (pruneUnlistable_isDir a)),
                sortEntries_map cfg pruneUnlistable pruneUnlistable_name pruneUnlistable_isDir]
            exact (walkChildrenWith_map_congr pruneUnlistable pruneUnlistable_name
              pruneUnlistable_isDir (STYLES cfg.style) _ _ _
              (fun x _ pfx2 depth2 st2 => (ih x pfx2 depth2 st2).symm) pfx depth _).symm
  · cases fuel with
    | zero => rfl
    | succ fuel =>
      simp only [walkDirF, iterdir, Bool.false_eq_true, if_false, if_true,
        List.filter_nil, sortEntries_nil]
      rfl

theorem entryLe_total (a b : FSEntry) : entryLe a b = false → entryLe b a = true :=
  entryLe_of_not a b

theorem filter_isFile_eq (l : List FSEntry) :
    l.filter (·.isFile) = l.filter fun x => !x.isDir :=
  List.filter_congr fun _ _ => rfl

theorem filter_partition_perm (l : List FSEntry) :
    (l.filter (·.isDir) ++ l.filter (·.isFile)).Perm l := by
  rw [filter_isFile_eq]
  exact List.filter_append_perm _ l

/-- C2: for every directory visited, the surviving entries are ordered
before emission as the claim says: in alphabetic mode one case-insensitive
ascending sort over all surviving entries regardless of type; otherwise a
partition into directories and files, each sorted case-insensitively
ascending, with the directories concatenated before the files — and in both
modes the emitted order is a permutation of the surviving entries. -/
theorem claim2_sort_order (cfg : TreeConfig) (l : List FSEntry) :
    (sortEntries cfg l).Perm l ∧
    (cfg.alphabetic = true →
      (sortEntries cfg l).Pairwise fun a b => entryLe a b = true) ∧
    (cfg.alphabetic = false →
      ∃ ds fs, sortEntries cfg l = ds ++ fs ∧
        ds.Perm (l.filter (·.isDir)) ∧ fs.Perm (l.filter (·.isFile)) ∧
        (ds.Pairwise fun a b => entryLe a b = true) ∧
        (fs.Pairwise fun a b => entryLe a b = true) ∧
        (∀ x ∈ ds, x.isDir = true) ∧ (∀ x ∈ fs, x.isFile = true)) := by
  refine ⟨?_, ?_, ?_⟩
  · unfold sortEntries
    split
    · exact stableSort_perm entryLe l
    · exact ((stableSort_perm entryLe _).append (stableSort_perm entryLe _)).trans
        (filter_partition_perm l)
  · intro ha
    unfold sortEntries
    rw [if_pos ha]
    exact stableSort_pairwise entryLe entryLe_total entryLe_trans l
  · intro ha
    refine ⟨stableSort entryLe (l.filter (·.isDir)), stableSort entryLe (l.filter (·.isFile)),
      ?_, stableSort_perm _ _, stableSort_perm _ _,
      stableSort_pairwise entryLe entryLe_total entryLe_trans _,
      stableSort_pairwise entryLe entryLe_total entryLe_trans _, ?_, ?_⟩
    · unfold sortEntries
      rw [if_neg (by simp [ha])]
    · intro x hx
      exact List.of_mem_filter ((mem_stableSort _ _ _).1 hx)
    · intro x hx
      exact List.of_mem_filter ((mem_stableSort _ _ _).1 hx)

/-- C2 witness: the default-mode decomposition at a concrete sibling list
(a file and a directory with interleaved case), obtained by applying
`claim2_sort_order` and discharging the mode hypothesis. -/
theorem claim2_sort_order_witness :
    ∃ ds fs,
      sortEntries defaultConfig [FSEntry.file "b", FSEntry.dir "A" true []] = ds ++ fs ∧
      ds.Perm ([FSEntry.file "b", FSEntry.dir "A" true []].filter (·.isDir)) ∧
      fs.Perm ([FSEntry.file "b", FSEntry.dir "A" true []].filter (·.isFile)) ∧
      (ds.Pairwise fun a b => entryLe a b = true) ∧
      (fs.Pairwise fun a b => entryLe a b = true) ∧
      (∀ x ∈ ds, x.isDir = true) ∧ (∀ x ∈ fs, x.isFile = true) :=
  (claim2_sort_order defaultConfig [FSEntry.file "b", FSEntry.dir "A" true []]).2.2 rfl

theorem entryLe_eq_keyLe (a b : FSEntry) :
    entryLe a b = keyLe (lowerKey a.name) (lowerKey b.name) := rfl

theorem anti_of_distinct_keys (l : List FSEntry)
    (hdist : l.Pairwise fun a b => lowerKey a.name ≠ lowerKey b.name) :
    ∀ a ∈ l, ∀ b ∈ l, entryLe a b = true → entryLe b a = true → a = b := by
  intro a ha b hb h1 h2
  by_contra hne
  have hkey : lowerKey a.name = lowerKey b.name :=
    keyLe_antisymm _ _ (entryLe_eq_keyLe a b ▸ h1) (entryLe_eq_keyLe b a ▸ h2)
  exact hdist.forall (fun x y h => h.symm) ha hb hne hkey

theorem stableSort_eq_of_perm (l1 l2 : List FSEntry) (hperm : l1.Perm l2)
    (hdist : l1.Pairwise fun a b => lowerKey a.name ≠ lowerKey b.name) :
    stableSort entryLe l1 = stableSort entryLe l2 := by
  refine sorted_perm_eq entryLe _ _ ?_
    ((stableSort_perm entryLe l1).trans (hperm.trans (stableSort_perm entryLe l2).symm))
    (stableSort_pairwise entryLe entryLe_total entryLe_trans l1)
    (stableSort_pairwise entryLe entryLe_total entryLe_trans l2)
  intro a ha b hb
  exact anti_of_distinct_keys l1 hdist a ((mem_stableSort _ _ _).1 ha)
    b ((mem_stableSort _ _ _).1 hb)

theorem sortEntries_eq_of_perm (cfg : TreeConfig) (l1 l2 : List FSEntry)
    (hperm : l1.Perm l2)
    (hdist : l1.Pairwise fun a b => lowerKey a.name ≠ lowerKey b.name) :
    sortEntries cfg l1 = sortEntries cfg l2 := by
  unfold sortEntries
  split
  · exact stableSort_eq_of_perm l1 l2 hperm hdist
  · rw [stableSort_eq_of_perm (l1.filter (·.isDir)) (l2.filter (·.isDir))
        (hperm.filter _) (hdist.sublist (List.filter_sublist l1)),
      stableSort_eq_of_perm (l1.filter (·.isFile)) (l2.filter (·.isFile))
        (hperm.filter _) (hdist.sublist (List.filter_sublist l1))]

/-- C9 amended: for a fixed snapshot and configuration the walk is a pure
function (two runs trivially agree), and the output is independent of the
order in which the filesystem enumerates a directory's entries *provided*
no two siblings have case-insensitively equal names.  (When two sibling
names collide case-insensitively, Python's stable sort keeps them in
enumeration order, so such ties are resolved by enumeration order, not by
name.) -/
theorem claim9_amended (cfg : TreeConfig) (fuel : Nat) (n : String) (b : Bool)
    (cs cs2 : List FSEntry) (pfx : String) (depth : Nat) (st : TreeStats)
    (hperm : cs.Perm cs2)
    (hdist : cs.Pairwise fun a b => lowerKey a.name ≠ lowerKey b.name) :
    walkDirF fuel cfg (.dir n b cs) pfx depth st =
      walkDirF fuel cfg (.dir n b cs2) pfx depth st := by
  cases fuel with
  | zero => rfl
  | succ fuel =>
    simp only [walkDirF]
    by_cases hdl : depthLimited cfg.max_depth depth = true
    · simp [hdl]
    · simp only [Bool.not_eq_true] at hdl
      simp only [hdl, Bool.false_eq_true, if_false]
      cases b with
      | false => rfl
      | true =>
        simp only [iterdir, if_true]
        rw [sortEntries_eq_of_perm cfg (cs.filter (keepEntry cfg)) (cs2.filter (keepEntry cfg))
          (hperm.filter _) (hdist.sublist (List.filter_sublist cs))]

/-- C9 counterexample: a directory containing the two files `File` and
`file` (distinct names, equal case-insensitive key).  Both child lists are
permutations of one another — the same filesystem snapshot enumerated in
two orders — yet the emitted output differs, because the stable sort keeps
equal-key entries in enumeration order; the tie is not broken by
case-insensitive name ordering, contradicting the claim. -/
theorem claim9_counterexample :
    enumA.Perm enumB ∧
    (walkDirF 3 defaultConfig (.dir "d" true enumA) "" 0 {}).1 ≠
      (walkDirF 3 defaultConfig (.dir "d" true enumB) "" 0 {}).1 := by
  constructor
  · exact List.Perm.swap (FSEntry.file "file") (FSEntry.file "File") []
  · decide

/-- C9 witness: the amended theorem applied to a two-file directory with
case-insensitively distinct names, in both enumeration orders. -/
theorem claim9_amended_witness :
    walkDirF 3 defaultConfig (.dir "d" true [.file "a", .file "B"]) "" 0 {} =
      walkDirF 3 defaultConfig (.dir "d" true [.file "B", .file "a"]) "" 0 {} :=
  claim9_amended defaultConfig 3 "d" true [.file "a", .file "B"] [.file "B", .file "a"]
    "" 0 {} (List.Perm.swap (FSEntry.file "B") (FSEntry.file "a") []) (by decide)

theorem truncateTree_name (k : Nat) (e : FSEntry) : (truncateTree k e).name = e.name := by
  cases e <;> cases k <;> rfl

theorem truncateTree_isDir (k : Nat) (e : FSEntry) : (truncateTree k e).isDir = e.isDir := by
  cases e <;> cases k <;> rfl

/-- C4 counterexample: with `max_depth = 1` on the round-trip fixture the
output is not just the root line — the level-1 entries `src/` and
`readme.txt` do appear, although the claim ("no entry at nesting level
`> k-1`", root being level 0) allows no entry beyond level 0 for `k = 1`. -/
theorem claim4_counterexample :
    (generate depth1Config "proj" fixtureTree).1 ≠ "proj" ∧
    (generate depth1Config "proj" fixtureTree).1 = "proj\n|-- src/\n+-- readme.txt" := by
  constructor
  · decide
  · decide

/-- C4 amended: with `max_depth = k`, a directory visited at depth
`d ≥ k` has none of its children enumerated (the walk contributes nothing
and leaves the statistics untouched), and the lines emitted below depth `d`
are exactly those of the unlimited walk of the tree truncated at `k - d`
more levels — so entries at nesting level up to `k` (not `k - 1`) appear,
and nothing deeper; the root line, emitted by `generate` before the walk,
is never depth-limited away. -/
theorem claim4_amended (k : Nat) (cfg : TreeConfig) (hk : cfg.max_depth = some k)
    (fuel : Nat) (e : FSEntry) (pfx : String) (depth : Nat) (st st2 : TreeStats) :
    (k ≤ depth → walkDirF fuel cfg e pfx depth st = ([], st)) ∧
    (walkDirF fuel cfg e pfx depth st).1 =
      (walkDirF fuel { cfg with max_depth := none } (truncateTree (k - depth) e) pfx depth st2).1 := by
  constructor
  · intro hd
    cases fuel with
    | zero => rfl
    | succ fuel =>
      simp [walkDirF, hk, depthLimited, hd]
  · induction fuel generalizing e pfx depth st st2 with
    | zero => rfl
    | succ fuel ih =>
      have hkeep : keepEntry { cfg with max_depth := none } = keepEntry cfg := rfl
      have hsort : sortEntries { cfg with max_depth := none } = sortEntries cfg := rfl
      have hlimN : ∀ d : Nat, depthLimited none d = false := fun _ => rfl
      by_cases hd : k ≤ depth
      · have h0 : k - depth = 0 := Nat.sub_eq_zero_of_le hd
        have hlim : depthLimited cfg.max_depth depth = true := by
          simp [hk, depthLimited, hd]
        rw [h0]
        cases e with
        | file n =>
          simp [walkDirF, hlim, truncateTree, hlimN, iterdir, sortEntries_nil,
            walkChildrenWith]
        | dir n b cs =>
          cases b with
          | false =>
            simp [walkDirF, hlim, truncateTree, hlimN, iterdir]
          | true =>
            simp [walkDirF, hlim, truncateTree, hlimN, iterdir, sortEntries_nil,
              walkChildrenWith]
      · have hlim : depthLimited cfg.max_depth depth = false := by
          simp [hk, depthLimited]
          omega
        cases e with
        | file n =>
          simp [walkDirF, hlim, truncateTree, hlimN, iterdir, sortEntries_nil,
            walkChildrenWith]
        | dir n b cs =>
          have hm : k - depth = (k - (depth + 1)) + 1 := by omega
          rw [hm]
          cases b with
          | false =>
            simp [walkDirF, hlim, truncateTree, hlimN, iterdir]
          | true =>
            simp only [walkDirF, hlim, Bool.false_eq_true, if_false, truncateTree,
              hlimN, iterdir, if_true]
            rw [hkeep, hsort]
            rw [filter_map_comm (keepEntry cfg) (truncateTree (k - (depth + 1)))
                (fun a => keepEntry_congr cfg _ a (truncateTree_name _ a) (truncateTree_isDir _ a)),
              sortEntries_map cfg (truncateTree (k - (depth + 1)))
                (truncateTree_name _) (truncateTree_isDir _)]
            exact (walkChildrenWith_map_lines (truncateTree (k - (depth + 1)))
              (truncateTree_name _) (truncateTree_isDir _) (STYLES cfg.style) depth
              (sortEntries cfg (cs.filter (keepEntry cfg)))
              (walkDirF fuel cfg) (walkDirF fuel { cfg with max_depth := none })
              (fun x _ pfx3 stA stB => (ih x pfx3 (depth + 1) stB stA).symm)
              pfx _ _).symm

/-- C4 witness: the amended theorem at `k = 1` on the fixture — a directory
visited at depth 1 contributes nothing, and the depth-limited lines equal
those of the tree truncated one level below the root. -/
theorem claim4_amended_witness :
    walkDirF 5 depth1Config fixtureTree "" 1 {} = ([], {}) ∧
    (walkDirF 5 depth1Config fixtureTree "" 0 {}).1 =
      (walkDirF 5 { depth1Config with max_depth := none } (truncateTree 1 fixtureTree) "" 0 {}).1 :=
  ⟨(claim4_amended 1 depth1Config rfl 5 fixtureTree "" 1 {} {}).1 (by decide),
   (claim4_amended 1 depth1Config rfl 5 fixtureTree "" 0 {} {}).2⟩

theorem sortEntries_perm (cfg : TreeConfig) (l : List FSEntry) :
    (sortEntries cfg l).Perm l := by
  unfold sortEntries
  split
  · exact stableSort_perm entryLe l
  · exact ((stableSort_perm entryLe _).append (stableSort_perm entryLe _)).trans
      (filter_partition_perm l)

theorem string_data_ne_nil (t : String) (h : t ≠ "") : t.data ≠ [] := by
  intro hd
  apply h
  cases t with
  | mk data => simp at hd; rw [hd]

theorem hasSlash_append (s t : String) (h : t ≠ "") :
    hasSlashSuffix (s ++ t) = hasSlashSuffix t := by
  unfold hasSlashSuffix
  rw [String.data_append, List.getLast?_append_of_ne_nil _ (string_data_ne_nil t h)]

theorem hasSlash_slash (s : String) : hasSlashSuffix (s ++ "/") = true := by
  rw [hasSlash_append s "/" (by decide)]
  rfl

theorem hasSlash_line (a n : String) (ha : hasSlashSuffix a = false)
    (hn : hasSlashSuffix n = false) : hasSlashSuffix (a ++ n) = false := by
  by_cases h : n = ""
  · subst h
    simpa using ha
  · rw [hasSlash_append a n h]
    exact hn

theorem reachCountsF_file (fuel : Nat) (maxd : Option Nat) (d : Nat) (n : String) :
    reachCountsF fuel maxd d (.file n) = (0, 0) := by
  cases fuel with
  | zero => rfl
  | succ fuel =>
    unfold reachCountsF
    split
    · rfl
    · rfl

theorem reach_foldr_eq_sum (dc fc : FSEntry → Nat) (l : List FSEntry) :
    l.foldr (fun c acc => ((if c.isDir then 1 else 0) + dc c + acc.1,
                           (if c.isFile then 1 else 0) + fc c + acc.2)) (0, 0)
      = ((l.map fun c => (if c.isDir then 1 else 0) + dc c).sum,
         (l.map fun c => (if c.isFile then 1 else 0) + fc c).sum) := by
  induction l with
  | nil => rfl
  | cons c cs ih =>
    simp only [List.foldr_cons, ih, List.map_cons, List.sum_cons, Prod.mk.injEq]

theorem mdr_update_totals (st : TreeStats) (depth : Nat) :
    (if depth > st.max_depth_reached then { st with max_depth_reached := depth } else st).total_dirs
      = st.total_dirs ∧
    (if depth > st.max_depth_reached then { st with max_depth_reached := depth } else st).total_files
      = st.total_files := by
  split <;> exact ⟨rfl, rfl⟩

theorem walkChildren_counts
    (w : FSEntry → String → Nat → TreeStats → List String × TreeStats)
    (g : StyleChars) (depth : Nat) (dcount fcount : FSEntry → Nat)
    (hgb : g.branch ≠ "" ∧ hasSlashSuffix g.branch = false)
    (hglb : g.last_branch ≠ "" ∧ hasSlashSuffix g.last_branch = false) :
    ∀ (l : List FSEntry),
      (∀ x ∈ l,
        (∀ pfx st, (w x pfx (depth + 1) st).2.total_dirs = st.total_dirs + dcount x) ∧
        (∀ pfx st, (w x pfx (depth + 1) st).2.total_files = st.total_files + fcount x) ∧
        (∀ pfx st, (w x pfx (depth + 1) st).1.countP hasSlashSuffix = dcount x) ∧
        (∀ pfx st, (w x pfx (depth + 1) st).1.length = dcount x + fcount x) ∧
        hasSlashSuffix x.name = false ∧
        (x.isDir = false → dcount x = 0 ∧ fcount x = 0)) →
      ∀ pfx st,
        (walkChildrenWith w g l pfx depth st).2.total_dirs
          = st.total_dirs + (l.map fun c => (if c.isDir then 1 else 0) + dcount c).sum ∧
        (walkChildrenWith w g l pfx depth st).2.total_files
          = st.total_files + (l.map fun c => (if c.isFile then 1 else 0) + fcount c).sum ∧
        (walkChildrenWith w g l pfx depth st).1.countP hasSlashSuffix
          = (l.map fun c => (if c.isDir then 1 else 0) + dcount c).sum ∧
        (walkChildrenWith w g l pfx depth st).1.length
          = (l.map fun c => (if c.isDir then 1 else 0) + dcount c).sum
            + (l.map fun c => (if c.isFile then 1 else 0) + fcount c).sum := by
  intro l
  induction l with
  | nil =>
    intro _ pfx st
    simp [walkChildrenWith]
  | cons e rest ih =>
    intro hw pfx st
    obtain ⟨hwd, hwf, hwc, hwl, hwn, hwz⟩ := hw e (List.mem_cons_self _ _)
    have ihw := ih fun x hx => hw x (List.mem_cons.2 (Or.inr hx))
    have hconn : hasSlashSuffix (pfx ++ if rest.isEmpty then g.last_branch else g.branch)
        = false := by
      by_cases hr : rest.isEmpty
      · rw [if_pos hr, hasSlash_append pfx _ hglb.1]
        exact hglb.2
      · rw [if_neg hr, hasSlash_append pfx _ hgb.1]
        exact hgb.2
    cases e with
    | file n =>
      have hz := hwz rfl
      have hlineslash : hasSlashSuffix
          ((pfx ++ if rest.isEmpty then g.last_branch else g.branch) ++ n) = false :=
        hasSlash_line _ n hconn hwn
      obtain ⟨ihd, ihf, ihc, ihl⟩ :=
        ihw pfx { st with total_files := st.total_files + 1 }
      simp only [walkChildrenWith, FSEntry.name] at *
      refine ⟨?_, ?_, ?_, ?_⟩
      · rw [ihd]
        simp [FSEntry.isDir, hz.1]
      · rw [ihf]
        simp [FSEntry.isFile, FSEntry.isDir, hz.2]
        omega
      · rw [List.countP_cons, ihc]
        simp [FSEntry.isDir, hz.1, hlineslash]
      · simp only [List.length_cons, ihl]
        simp [FSEntry.isDir, FSEntry.isFile, hz.1, hz.2]
        omega
    | dir n b cs =>
      have hlineslash : hasSlashSuffix
          (((pfx ++ if rest.isEmpty then g.last_branch else g.branch) ++ n) ++ "/") = true :=
        hasSlash_slash _
      obtain ⟨ihd, ihf, ihc, ihl⟩ :=
        ihw pfx ((w (.dir n b cs) (pfx ++ if rest.isEmpty then g.space else g.vertical)
          (depth + 1) { st with total_dirs := st.total_dirs + 1 }).2)
      simp only [walkChildrenWith, FSEntry.name] at *
      refine ⟨?_, ?_, ?_, ?_⟩
      · rw [ihd, hwd]
        simp [FSEntry.isDir]
        omega
      · rw [ihf, hwf]
        simp [FSEntry.isFile, FSEntry.isDir]
        omega
      · simp only [List.countP_cons, List.countP_append, ihc, hwc, hlineslash]
        simp [FSEntry.isDir]
        omega
      · simp only [List.length_cons, List.length_append, ihl, hwl]
        simp [FSEntry.isDir, FSEntry.isFile]
        omega

theorem STYLES_glyphs_ok (s : TreeStyle) :
    (STYLES s).branch ≠ "" ∧ hasSlashSuffix (STYLES s).branch = false ∧
    (STYLES s).last_branch ≠ "" ∧ hasSlashSuffix (STYLES s).last_branch = false := by
  cases s <;> refine ⟨?_, ?_, ?_, ?_⟩ <;> decide

theorem walk_counts_aux (cfg : TreeConfig) (hdo : cfg.dirs_only = false)
    (hfo : cfg.files_only = false) (hih : cfg.ignore_hidden = false)
    (hip : cfg.ignore_patterns = []) :
    ∀ (fuel : Nat) (e : FSEntry) (pfx : String) (depth : Nat) (st : TreeStats),
      (∀ x ∈ allEntriesF fuel e, hasSlashSuffix x.name = false) →
      ((walkDirF fuel cfg e pfx depth st).2.total_dirs
          = st.total_dirs + (reachCountsF fuel cfg.max_depth depth e).1 ∧
       (walkDirF fuel cfg e pfx depth st).2.total_files
          = st.total_files + (reachCountsF fuel cfg.max_depth depth e).2 ∧
       (walkDirF fuel cfg e pfx depth st).1.countP hasSlashSuffix
          = (reachCountsF fuel cfg.max_depth depth e).1 ∧
       (walkDirF fuel cfg e pfx depth st).1.length
          = (reachCountsF fuel cfg.max_depth depth e).1
            + (reachCountsF fuel cfg.max_depth depth e).2) := by
  intro fuel
  induction fuel with
  | zero =>
    intro e pfx depth st _
    simp [walkDirF, reachCountsF]
  | succ fuel ih =>
    intro e pfx depth st hnames
    obtain ⟨h1, h2⟩ := mdr_update_totals st depth
    by_cases hdl : depthLimited cfg.max_depth depth = true
    · simp [walkDirF, reachCountsF, hdl]
    · simp only [Bool.not_eq_true] at hdl
      cases e with
      | file n =>
        simp [walkDirF, hdl, iterdir, sortEntries_nil, walkChildrenWith,
          reachCountsF_file, h1, h2]
      | dir n b cs =>
        cases b with
        | false =>
          simp [walkDirF, reachCountsF, hdl, iterdir, h1, h2]
        | true =>
          have hkeepall : ∀ x ∈ cs, keepEntry cfg x = true := fun x _ => by
            simp [keepEntry, hdo, hfo, hih, hip, shouldIgnore]
          have hfilter : cs.filter (keepEntry cfg) = cs := List.filter_eq_self.2 hkeepall
          have hperm : (sortEntries cfg cs).Perm cs := sortEntries_perm cfg cs
          have hg := STYLES_glyphs_ok cfg.style
          have hx : ∀ x ∈ sortEntries cfg cs,
              (∀ pfx2 st2, (walkDirF fuel cfg x pfx2 (depth + 1) st2).2.total_dirs
                = st2.total_dirs + (reachCountsF fuel cfg.max_depth (depth + 1) x).1) ∧
              (∀ pfx2 st2, (walkDirF fuel cfg x pfx2 (depth + 1) st2).2.total_files
                = st2.total_files + (reachCountsF fuel cfg.max_depth (depth + 1) x).2) ∧
              (∀ pfx2 st2, (walkDirF fuel cfg x pfx2 (depth + 1) st2).1.countP hasSlashSuffix
                = (reachCountsF fuel cfg.max_depth (depth + 1) x).1) ∧
              (∀ pfx2 st2, (walkDirF fuel cfg x pfx2 (depth + 1) st2).1.length
                = (reachCountsF fuel cfg.max_depth (depth + 1) x).1
                  + (reachCountsF fuel cfg.max_depth (depth + 1) x).2) ∧
              hasSlashSuffix x.name = false ∧
              (x.isDir = false →
                (reachCountsF fuel cfg.max_depth (depth + 1) x).1 = 0 ∧
                (reachCountsF fuel cfg.max_depth (depth + 1) x).2 = 0) := by
            intro x hxs
            have hxcs : x ∈ cs := hperm.mem_iff.1 hxs
            have hxall : x ∈ allEntriesF (fuel + 1) (.dir n true cs) := by
              simp only [allEntriesF]
              exact List.mem_append.2 (Or.inl hxcs)
            have hsub : ∀ y ∈ allEntriesF fuel x, hasSlashSuffix y.name = false := by
              intro y hy
              apply hnames
              simp only [allEntriesF]
              exact List.mem_append.2 (Or.inr (mem_foldr_append.2 ⟨x, hxcs, hy⟩))
            refine ⟨fun pfx2 st2 => (ih x pfx2 (depth + 1) st2 hsub).1,
              fun pfx2 st2 => (ih x pfx2 (depth + 1) st2 hsub).2.1,
              fun pfx2 st2 => (ih x pfx2 (depth + 1) st2 hsub).2.2.1,
              fun pfx2 st2 => (ih x pfx2 (depth + 1) st2 hsub).2.2.2,
              hnames x hxall, ?_⟩
            intro hxfile
            rw [FSEntry.eq_file_of_not_isDir x hxfile, reachCountsF_file]
            exact ⟨rfl, rfl⟩
          have main := walkChildren_counts (walkDirF fuel cfg) (STYLES cfg.style) depth
            (fun c => (reachCountsF fuel cfg.max_depth (depth + 1) c).1)
            (fun c => (reachCountsF fuel cfg.max_depth (depth + 1) c).2)
            ⟨hg.1, hg.2.1⟩ ⟨hg.2.2.1, hg.2.2.2⟩ (sortEntries cfg cs) hx pfx
            (if depth > st.max_depth_reached then { st with max_depth_reached := depth } else st)
          have hreach : reachCountsF (fuel + 1) cfg.max_depth depth (.dir n true cs)
              = ((cs.map fun c => (if c.isDir then 1 else 0)
                    + (reachCountsF fuel cfg.max_depth (depth + 1) c).1).sum,
                 (cs.map fun c => (if c.isFile then 1 else 0)
                    + (reachCountsF fuel cfg.max_depth (depth + 1) c).2).sum) := by
            simp only [reachCountsF, hdl, Bool.false_eq_true, if_false, iterdir, if_true]
            exact reach_foldr_eq_sum _ _ cs
          have hsumd : ((sortEntries cfg cs).map fun c => (if c.isDir then 1 else 0)
                + (reachCountsF fuel cfg.max_depth (depth + 1) c).1).sum
              = (cs.map fun c => (if c.isDir then 1 else 0)
                + (reachCountsF fuel cfg.max_depth (depth + 1) c).1).sum :=
            (hperm.map _).sum_eq
          have hsumf : ((sortEntries cfg cs).map fun c => (if c.isFile then 1 else 0)
                + (reachCountsF fuel cfg.max_depth (depth + 1) c).2).sum
              = (cs.map fun c => (if c.isFile then 1 else 0)
                + (reachCountsF fuel cfg.max_depth (depth + 1) c).2).sum :=
            (hperm.map _).sum_eq
          simp only [walkDirF, hdl, Bool.false_eq_true, if_false, iterdir, if_true, hfilter,
            hreach]
          rw [hsumd, hsumf] at main
          obtain ⟨m1, m2, m3, m4⟩ := main
          exact ⟨by rw [m1, h1], by rw [m2, h2], m3, m4⟩

/-- C6: with no filters configured, after the walk the statistics'
`total_dirs` equals the number of emitted directory lines (lines carrying
the trailing `/`), `total_files` equals the number of emitted file lines,
and these equal the numbers of directories and files reachable within the
configured depth (`reachCountsF`); `generate` reads its statistics from
exactly this walk.  (Names are assumed not to end in `/`, which the
filesystem guarantees.) -/
theorem claim6_stats_counts (cfg : TreeConfig) (hdo : cfg.dirs_only = false)
    (hfo : cfg.files_only = false) (hih : cfg.ignore_hidden = false)
    (hip : cfg.ignore_patterns = []) (e : FSEntry) (pfx : String) (depth : Nat)
    (hnames : ∀ x ∈ allEntriesF (fsSize e) e, hasSlashSuffix x.name = false) :
    (walkDirectory cfg e pfx depth {}).2.total_dirs
        = (walkDirectory cfg e pfx depth {}).1.countP hasSlashSuffix ∧
    (walkDirectory cfg e pfx depth {}).2.total_files
        = (walkDirectory cfg e pfx depth {}).1.countP (fun s => !hasSlashSuffix s) ∧
    (walkDirectory cfg e pfx depth {}).2.total_dirs
        = (reachCountsF (fsSize e) cfg.max_depth depth e).1 ∧
    (walkDirectory cfg e pfx depth {}).2.total_files
        = (reachCountsF (fsSize e) cfg.max_depth depth e).2 ∧
    (∀ rootStr : String, (generate cfg rootStr e).2 = (walkDirectory cfg e "" 0 {}).2) := by
  obtain ⟨a1, a2, a3, a4⟩ :=
    walk_counts_aux cfg hdo hfo hih hip (fsSize e) e pfx depth {} hnames
  have z1 : ({} : TreeStats).total_dirs = 0 := rfl
  have z2 : ({} : TreeStats).total_files = 0 := rfl
  rw [z1] at a1
  rw [z2] at a2
  have hnotP : ∀ l : List String,
      l.countP (fun a => decide ¬(hasSlashSuffix a = true))
        = l.countP (fun s => !hasSlashSuffix s) := fun l =>
    List.countP_congr fun a _ => by cases h : hasSlashSuffix a <;> simp [h]
  have hlen : (walkDirF (fsSize e) cfg e pfx depth {}).1.length
      = (walkDirF (fsSize e) cfg e pfx depth {}).1.countP hasSlashSuffix
        + (walkDirF (fsSize e) cfg e pfx depth {}).1.countP (fun s => !hasSlashSuffix s) := by
    rw [List.length_eq_countP_add_countP hasSlashSuffix, hnotP]
  unfold walkDirectory
  refine ⟨?_, ?_, ?_, ?_, fun rootStr => rfl⟩ <;> omega

/-- C6 witness: the claim applied to the fixture tree under the default
(filter-free) configuration. -/
theorem claim6_stats_counts_witness :
    (walkDirectory defaultConfig fixtureTree "" 0 {}).2.total_dirs
        = (walkDirectory defaultConfig fixtureTree "" 0 {}).1.countP hasSlashSuffix ∧
    (walkDirectory defaultConfig fixtureTree "" 0 {}).2.total_files
        = (walkDirectory defaultConfig fixtureTree "" 0 {}).1.countP
            (fun s => !hasSlashSuffix s) ∧
    (walkDirectory defaultConfig fixtureTree "" 0 {}).2.total_dirs
        = (reachCountsF (fsSize fixtureTree) defaultConfig.max_depth 0 fixtureTree).1 ∧
    (walkDirectory defaultConfig fixtureTree "" 0 {}).2.total_files
        = (reachCountsF (fsSize fixtureTree) defaultConfig.max_depth 0 fixtureTree).2 ∧
    (∀ rootStr : String,
      (generate defaultConfig rootStr fixtureTree).2
        = (walkDirectory defaultConfig fixtureTree "" 0 {}).2) :=
  claim6_stats_counts defaultConfig rfl rfl rfl rfl fixtureTree "" 0 (by decide)

theorem shouldIgnore_cons (p : String) (pats : List String) (nm : String) (d : Bool) :
    shouldIgnore (p :: pats) nm d = (patternMatches p nm d || shouldIgnore pats nm d) := by
  simp [shouldIgnore]

/-- C10: adding an ignore pattern that matches no entry of the traversed
tree leaves the walk (lines and statistics) unchanged, and a directory-only
pattern (ending in `/`) never contributes to ignoring a file: for files the
matcher behaves as if the pattern were absent. -/
theorem claim10_ignore_idempotence (cfg : TreeConfig) (fuel : Nat) (e : FSEntry)
    (pfx : String) (depth : Nat) (st : TreeStats) (p : String)
    (hnomatch : ∀ x ∈ allEntriesF fuel e, patternMatches p x.name x.isDir = false) :
    walkDirF fuel { cfg with ignore_patterns := p :: cfg.ignore_patterns } e pfx depth st =
      walkDirF fuel cfg e pfx depth st ∧
    (∀ (q name : String) (patterns : List String), strEndsWith q "/" = true →
      shouldIgnore (q :: patterns) name false = shouldIgnore patterns name false) := by
  constructor
  · induction fuel generalizing e pfx depth st with
    | zero => rfl
    | succ fuel ih =>
      have hsort : sortEntries { cfg with ignore_patterns := p :: cfg.ignore_patterns }
          = sortEntries cfg := rfl
      have hmax : ({ cfg with ignore_patterns := p :: cfg.ignore_patterns } : TreeConfig).max_depth
          = cfg.max_depth := rfl
      have hstyle : ({ cfg with ignore_patterns := p :: cfg.ignore_patterns } : TreeConfig).style
          = cfg.style := rfl
      cases e with
      | file n =>
        simp only [walkDirF, hmax, iterdir, List.filter_nil, sortEntries_nil, walkChildrenWith]
      | dir n b cs =>
        cases b with
        | false =>
          simp only [walkDirF, hmax, iterdir, Bool.false_eq_true, if_false]
        | true =>
          simp only [walkDirF, hmax, hstyle, hsort, iterdir, if_true]
          by_cases hdl : depthLimited cfg.max_depth depth = true
          · simp [hdl]
          · simp only [Bool.not_eq_true] at hdl
            simp only [hdl, Bool.false_eq_true, if_false]
            have hkeep : cs.filter
                (keepEntry { cfg with ignore_patterns := p :: cfg.ignore_patterns })
                = cs.filter (keepEntry cfg) := by
              apply List.filter_congr
              intro x hx
              have hnm : patternMatches p x.name x.isDir = false := by
                apply hnomatch
                simp only [allEntriesF]
                exact List.mem_append.2 (Or.inl hx)
              simp [keepEntry, shouldIgnore_cons, hnm]
            rw [hkeep]
            have hw : ∀ x ∈ sortEntries cfg (cs.filter (keepEntry cfg)),
                ∀ pfx2 depth2 st2,
                  walkDirF fuel { cfg with ignore_patterns := p :: cfg.ignore_patterns }
                      (id x) pfx2 depth2 st2
                    = walkDirF fuel cfg x pfx2 depth2 st2 := by
              intro x hxs pfx2 depth2 st2
              have hxcs : x ∈ cs :=
                List.mem_of_mem_filter (mem_sortEntries cfg _ x hxs)
              apply ih
              intro y hy
              apply hnomatch
              simp only [allEntriesF]
              exact List.mem_append.2 (Or.inr (mem_foldr_append.2 ⟨x, hxcs, hy⟩))
            have hcongr := walkChildrenWith_map_congr id (fun x => rfl) (fun x => rfl)
              (STYLES cfg.style) (sortEntries cfg (cs.filter (keepEntry cfg)))
              (walkDirF fuel cfg)
              (walkDirF fuel { cfg with ignore_patterns := p :: cfg.ignore_patterns })
              hw pfx depth
              (if depth > st.max_depth_reached then { st with max_depth_reached := depth }
               else st)
            rw [List.map_id] at hcongr
            exact hcongr
  · intro q name patterns hq
    rw [shouldIgnore_cons]
    have hqm : patternMatches q name false = false := by
      unfold patternMatches
      simp [hq]
    rw [hqm]
    simp

/-- C10 witness: adding the never-matching pattern `zzz` to the default
configuration leaves the walk of the fixture unchanged (and the
directory-only-pattern clause instantiated at `build/`). -/
theorem claim10_ignore_idempotence_witness :
    walkDirF 5 { defaultConfig with ignore_patterns := "zzz" :: defaultConfig.ignore_patterns }
        fixtureTree "" 0 {} = walkDirF 5 defaultConfig fixtureTree "" 0 {} ∧
    shouldIgnore ["build/"] "build" false = shouldIgnore [] "build" false :=
  ⟨(claim10_ignore_idempotence defaultConfig 5 fixtureTree "" 0 {} "zzz" (by decide)).1,
   (claim10_ignore_idempotence defaultConfig 5 fixtureTree "" 0 {} "zzz" (by decide)).2
     "build/" "build" [] (by decide)⟩
